import Mathlib

/-!
Shallow embedding of `poker.py` (dhpoware/poker): the card model, the
`CardDeck` dealing operations and the `PokerHandEvaluator` category checks,
together with theorems settling the specification claims about them.
-/

set_option maxHeartbeats 1000000

namespace Poker

/-- The 4 suits of a playing card (`CardSuit` in poker.py), enum values 1..4. -/
inductive CardSuit
  | CLUBS
  | DIAMONDS
  | HEARTS
  | SPADES
deriving DecidableEq, Fintype

/-- Numeric enum value of a suit (CLUBS = 1 .. SPADES = 4); suit comparison in
poker.py compares these values. -/
def CardSuit.value : CardSuit → Nat
  | .CLUBS => 1
  | .DIAMONDS => 2
  | .HEARTS => 3
  | .SPADES => 4

/-- The 13 ranks of a playing card (`CardRank` in poker.py), enum values 2..14. -/
inductive CardRank
  | DEUCE
  | TREY
  | FOUR
  | FIVE
  | SIX
  | SEVEN
  | EIGHT
  | NINE
  | TEN
  | JACK
  | QUEEN
  | KING
  | ACE
deriving DecidableEq, Fintype

/-- Numeric enum value of a rank (DEUCE = 2 .. ACE = 14); rank comparison in
poker.py compares these values. -/
def CardRank.value : CardRank → Nat
  | .DEUCE => 2
  | .TREY => 3
  | .FOUR => 4
  | .FIVE => 5
  | .SIX => 6
  | .SEVEN => 7
  | .EIGHT => 8
  | .NINE => 9
  | .TEN => 10
  | .JACK => 11
  | .QUEEN => 12
  | .KING => 13
  | .ACE => 14

/-- A playing card: the (rank, suit) tuple of `Card` in poker.py. -/
structure Card where
  rank : CardRank
  suit : CardSuit
deriving DecidableEq

/-- Python tuple comparison on cards: lexicographic, rank value first, suit
value as tiebreak. This is the order used by `sorted` on lists of cards. -/
def cardLE (a b : Card) : Prop :=
  a.rank.value < b.rank.value ∨
    (a.rank.value = b.rank.value ∧ a.suit.value ≤ b.suit.value)

/-- The reversed card order, used for `sorted(self.cards, reverse=True)`. -/
def cardGE (a b : Card) : Prop := cardLE b a

instance : DecidableRel cardLE := fun a b => by
  unfold cardLE; exact inferInstance

instance : DecidableRel cardGE := fun a b => by
  unfold cardGE; exact inferInstance

instance : IsTotal Card cardLE where
  total a b := by unfold cardLE; omega

instance : IsTrans Card cardLE where
  trans a b c hab hbc := by unfold cardLE at hab hbc ⊢; omega

instance : IsAntisymm Card cardLE where
  antisymm a b hab hba := by
    unfold cardLE at hab hba
    have hr : a.rank.value = b.rank.value := by omega
    have hs : a.suit.value = b.suit.value := by omega
    cases a with
    | mk ar as =>
      cases b with
      | mk br bs =>
        have hrinj : ∀ (a b : CardRank), a.value = b.value → a = b := by decide
        have hsinj : ∀ (a b : CardSuit), a.value = b.value → a = b := by decide
        simp only at hr hs
        rw [hrinj _ _ hr, hsinj _ _ hs]

instance : IsTotal Card cardGE where
  total a b := by unfold cardGE; exact (IsTotal.total (r := cardLE) b a)

instance : IsTrans Card cardGE where
  trans a b c hab hbc := by
    unfold cardGE at hab hbc ⊢
    exact IsTrans.trans (r := cardLE) c b a hbc hab

instance : IsRefl Card cardLE where
  refl a := Or.inr ⟨rfl, Nat.le_refl _⟩

instance : IsRefl Card cardGE where
  refl a := IsRefl.refl (r := cardLE) a

instance : IsAntisymm Card cardGE where
  antisymm a b hab hba := IsAntisymm.antisymm (r := cardLE) a b hba hab

/-- Python `sorted(cards)`: the ascending sorted permutation of the hand. -/
def sortCards (cards : List Card) : List Card := List.insertionSort cardLE cards

/-- Python `sorted(cards, reverse=True)`: the descending sorted permutation. -/
def sortCardsDesc (cards : List Card) : List Card :=
  List.insertionSort cardGE cards

/-- Distinct elements of a list in first-occurrence order, mirroring Python
dict / Counter insertion order (and set construction for size purposes). -/
def uniqueKeysAux {α : Type} [DecidableEq α] : List α → List α → List α
  | [], acc => acc.reverse
  | x :: xs, acc =>
    if x ∈ acc then uniqueKeysAux xs acc else uniqueKeysAux xs (x :: acc)

/-- Distinct elements of a list in first-occurrence order. -/
def uniqueKeys {α : Type} [DecidableEq α] (l : List α) : List α :=
  uniqueKeysAux l []

/-- `Counter(card.rank for card in self.cards).items()`: the (rank,
multiplicity) pairs, keys in first-occurrence order of the hand. -/
def counterItems (cards : List Card) : List (CardRank × Nat) :=
  (uniqueKeys (cards.map Card.rank)).map
    (fun r => (r, (cards.map Card.rank).count r))

/-- `PokerHandEvaluator.is_four_of_a_kind`: first rank with multiplicity 4. -/
def is_four_of_a_kind (cards : List Card) : Option CardRank :=
  ((counterItems cards).find? (fun p => p.2 == 4)).map Prod.fst

/-- `PokerHandEvaluator.is_three_of_a_kind`: first rank with multiplicity 3. -/
def is_three_of_a_kind (cards : List Card) : Option CardRank :=
  ((counterItems cards).find? (fun p => p.2 == 3)).map Prod.fst

/-- The accumulation loop `for rank, occurrences in Counter(...).items(): if
occurrences == k: append(rank)` shared by the multiplicity-based checks: the
ranks of multiplicity exactly `k`, in first-occurrence order. -/
def ranksWithCount (cards : List Card) (k : Nat) : List CardRank :=
  ((counterItems cards).filter (fun p => p.2 == k)).map Prod.fst

/-- The `total_pairs` list built by both `is_one_pair` and `is_two_pairs`:
ranks of multiplicity exactly 2, in first-occurrence order. -/
def totalPairs (cards : List Card) : List CardRank :=
  ranksWithCount cards 2

/-- `PokerHandEvaluator.is_one_pair`. -/
def is_one_pair (cards : List Card) : Option CardRank :=
  match totalPairs cards with
  | [p] => some p
  | _ => none

/-- `PokerHandEvaluator.is_two_pairs`: the two pair ranks, in the order the
loop appended them (first-occurrence order of the hand). -/
def is_two_pairs (cards : List Card) : Option (CardRank × CardRank) :=
  match totalPairs cards with
  | [p, q] => some (p, q)
  | _ => none

/-- `PokerHandEvaluator.is_full_house`: the unique multiplicity-3 rank and the
unique multiplicity-2 rank, when each exists. -/
def is_full_house (cards : List Card) : Option (CardRank × CardRank) :=
  match ranksWithCount cards 3, ranksWithCount cards 2 with
  | [t], [p] => some (t, p)
  | _, _ => none

/-- `PokerHandEvaluator.is_flush`: all cards of one suit; returns the rank of
the last card of the ascending sort (`sorted(self.cards)[-1].rank`). -/
def is_flush (cards : List Card) : Option CardRank :=
  if (uniqueKeys (cards.map Card.suit)).length == 1 then
    ((sortCards cards).getLast?).map Card.rank
  else none

/-- `PokerHandEvaluator.is_straight`: no duplicate rank and the sorted ranks
span exactly 4 (`sorted_hand_ranks[-1].value - sorted_hand_ranks[0].value`,
computed over Python integers); returns the last sorted rank. -/
def is_straight (cards : List Card) : Option CardRank :=
  if (counterItems cards).any (fun p => decide (p.2 > 1)) then none
  else
    match ((sortCards cards).map Card.rank).head?,
        ((sortCards cards).map Card.rank).getLast? with
    | some lo, some hi =>
      if (hi.value : Int) - (lo.value : Int) = 4 then some hi else none
    | _, _ => none

/-- `PokerHandEvaluator.high_card`: `sorted(self.cards, reverse=True)[0]`. -/
def high_card (cards : List Card) : Option Card := (sortCardsDesc cards).head?

/-- `PokerHandEvaluator.is_straight_flush`: high card rank when both the
straight and the flush checks succeed. -/
def is_straight_flush (cards : List Card) : Option CardRank :=
  if (is_straight cards).isSome && (is_flush cards).isSome then
    (high_card cards).map Card.rank
  else none

/-- The classification reported by `PokerHand.evaluate`, one tagged variant
per hand category. The HighCard fallback reports the high card itself. -/
inductive Classification
  | StraightFlush (r : CardRank)
  | FourOfAKind (r : CardRank)
  | FullHouse (t p : CardRank)
  | Flush (r : CardRank)
  | Straight (r : CardRank)
  | ThreeOfAKind (r : CardRank)
  | TwoPair (a b : CardRank)
  | OnePair (r : CardRank)
  | HighCard (c : Card)
deriving DecidableEq

/-- `PokerHand.evaluate`: the nested if/else chain trying each check in the
order straight flush, four of a kind, full house, flush, straight, three of a
kind, two pairs, one pair, high card; the result is the first check that
succeeds (every rank enum value is truthy in Python). `none` can only arise
from `high_card` of an empty hand, which a 5-card hand excludes. -/
def evaluate (cards : List Card) : Option Classification :=
  match is_straight_flush cards with
  | some r => some (.StraightFlush r)
  | none =>
    match is_four_of_a_kind cards with
    | some r => some (.FourOfAKind r)
    | none =>
      match is_full_house cards with
      | some q => some (.FullHouse q.1 q.2)
      | none =>
        match is_flush cards with
        | some r => some (.Flush r)
        | none =>
          match is_straight cards with
          | some r => some (.Straight r)
          | none =>
            match is_three_of_a_kind cards with
            | some r => some (.ThreeOfAKind r)
            | none =>
              match is_two_pairs cards with
              | some q => some (.TwoPair q.1 q.2)
              | none =>
                match is_one_pair cards with
                | some r => some (.OnePair r)
                | none => (high_card cards).map .HighCard

/-- The failure conditions of the deck operations: `OutOfCards` is the
exception poker.py raises explicitly; the index-error case marks the
(unreachable) `list.pop()` on an empty list. -/
inductive DeckError
  | outOfCards
  | indexError
deriving DecidableEq

/-- `list.pop()`: remove and return the last element of the list. -/
def popLast (cards : List Card) : Option (Card × List Card) :=
  match cards.getLast? with
  | some c => some (c, cards.dropLast)
  | none => none

/-- The loop `for i in range(number_of_cards): dealt_cards.append(self.cards.pop())`:
the dealt cards in pop order together with the remaining deck. -/
def popN : Nat → List Card → Option (List Card × List Card)
  | 0, cards => some ([], cards)
  | n + 1, cards =>
    match popLast cards with
    | none => none
    | some (c, rest) =>
      match popN n rest with
      | none => none
      | some (ds, rest2) => some (c :: ds, rest2)

/-- `CardDeck.deal_card`: the result of the call paired with the deck state
after the call. The guard `len(self.cards) - 1 > 0` is computed over Python
integers, hence the cast to `Int`. -/
def deal_card (deck : List Card) : Except DeckError Card × List Card :=
  if (deck.length : Int) - 1 > 0 then
    match popLast deck with
    | some (c, rest) => (Except.ok c, rest)
    | none => (Except.error DeckError.indexError, deck)
  else (Except.error DeckError.outOfCards, deck)

/-- `CardDeck.deal_cards`: the result of the call paired with the deck state
after the call. The availability guard `len(self.cards) - number_of_cards > 0`
precedes every pop, so the error path leaves the deck untouched. -/
def deal_cards (deck : List Card) (number_of_cards : Nat) :
    Except DeckError (List Card) × List Card :=
  if (deck.length : Int) - (number_of_cards : Int) > 0 then
    match popN number_of_cards deck with
    | some (ds, rest) => (Except.ok ds, rest)
    | none => (Except.error DeckError.indexError, deck)
  else (Except.error DeckError.outOfCards, deck)

/-- The spec's description of `classify`: the ordered list of category check
results, in the fixed precedence order. -/
def orderedChecks (cards : List Card) : List (Option Classification) :=
  [(is_straight_flush cards).map Classification.StraightFlush,
   (is_four_of_a_kind cards).map Classification.FourOfAKind,
   (is_full_house cards).map (fun q => Classification.FullHouse q.1 q.2),
   (is_flush cards).map Classification.Flush,
   (is_straight cards).map Classification.Straight,
   (is_three_of_a_kind cards).map Classification.ThreeOfAKind,
   (is_two_pairs cards).map (fun q => Classification.TwoPair q.1 q.2),
   (is_one_pair cards).map Classification.OnePair,
   (high_card cards).map Classification.HighCard]

/-- The spec's `classify`: evaluate the checks in precedence order and return
the first match (spec wording, to be compared with `evaluate`). -/
def classifySpec (cards : List Card) : Option Classification :=
  (orderedChecks cards).findSome? id

/-- The straight 7♣ 6♠ 5♠ 4♥ 3♥ from the repository's tests. -/
def straightHand : List Card :=
  [⟨.SEVEN, .CLUBS⟩, ⟨.SIX, .SPADES⟩, ⟨.FIVE, .SPADES⟩, ⟨.FOUR, .HEARTS⟩,
   ⟨.TREY, .HEARTS⟩]

/-- The straight flush Q♥ J♥ 10♥ 9♥ 8♥ from the repository's tests. -/
def straightFlushHand : List Card :=
  [⟨.QUEEN, .HEARTS⟩, ⟨.JACK, .HEARTS⟩, ⟨.TEN, .HEARTS⟩, ⟨.NINE, .HEARTS⟩,
   ⟨.EIGHT, .HEARTS⟩]

/-- The wheel hand A♣ 2♦ 3♥ 4♠ 5♣ of mixed suits. -/
def wheelHand : List Card :=
  [⟨.ACE, .CLUBS⟩, ⟨.DEUCE, .DIAMONDS⟩, ⟨.TREY, .HEARTS⟩, ⟨.FOUR, .SPADES⟩,
   ⟨.FIVE, .CLUBS⟩]

/-- The two-pair hand 2♣ 2♦ K♣ K♦ 5♣: the lower pair appears first. -/
def twoPairHand : List Card :=
  [⟨.DEUCE, .CLUBS⟩, ⟨.DEUCE, .DIAMONDS⟩, ⟨.KING, .CLUBS⟩, ⟨.KING, .DIAMONDS⟩,
   ⟨.FIVE, .CLUBS⟩]

/-- A reordering of `twoPairHand` in which a king comes first. -/
def twoPairHandSwapped : List Card :=
  [⟨.KING, .CLUBS⟩, ⟨.DEUCE, .CLUBS⟩, ⟨.DEUCE, .DIAMONDS⟩, ⟨.KING, .DIAMONDS⟩,
   ⟨.FIVE, .CLUBS⟩]

/-- The full house A♣ A♦ A♥ K♣ K♦. -/
def fullHouseHand : List Card :=
  [⟨.ACE, .CLUBS⟩, ⟨.ACE, .DIAMONDS⟩, ⟨.ACE, .HEARTS⟩, ⟨.KING, .CLUBS⟩,
   ⟨.KING, .DIAMONDS⟩]

/-- The three-of-a-kind hand 7♣ 7♠ 7♦ 4♥ 3♥ from the repository's tests. -/
def threeOfAKindHand : List Card :=
  [⟨.SEVEN, .CLUBS⟩, ⟨.SEVEN, .SPADES⟩, ⟨.SEVEN, .DIAMONDS⟩, ⟨.FOUR, .HEARTS⟩,
   ⟨.TREY, .HEARTS⟩]

/-! Basic facts about the card model. -/

theorem rankValue_inj : ∀ (a b : CardRank), a.value = b.value → a = b := by
  decide

theorem suitValue_inj : ∀ (a b : CardSuit), a.value = b.value → a = b := by
  decide

/-! Helper lemmas about `uniqueKeys` and `counterItems`. -/

theorem mem_uniqueKeysAux {α : Type} [DecidableEq α] (l : List α) :
    ∀ (acc : List α) (x : α), x ∈ uniqueKeysAux l acc ↔ x ∈ l ∨ x ∈ acc := by
  induction l with
  | nil => intro acc x; simp [uniqueKeysAux]
  | cons y ys ih =>
    intro acc x
    by_cases hy : y ∈ acc
    · rw [uniqueKeysAux, if_pos hy, ih]
      constructor
      · rintro (h | h)
        · exact Or.inl (List.mem_cons_of_mem _ h)
        · exact Or.inr h
      · rintro (h | h)
        · rcases List.mem_cons.mp h with rfl | h
          · exact Or.inr hy
          · exact Or.inl h
        · exact Or.inr h
    · rw [uniqueKeysAux, if_neg hy, ih]
      constructor
      · rintro (h | h)
        · exact Or.inl (List.mem_cons_of_mem _ h)
        · rcases List.mem_cons.mp h with rfl | h
          · exact Or.inl (List.mem_cons_self _ _)
          · exact Or.inr h
      · rintro (h | h)
        · rcases List.mem_cons.mp h with rfl | h
          · exact Or.inr (List.mem_cons_self _ _)
          · exact Or.inl h
        · exact Or.inr (List.mem_cons_of_mem _ h)

theorem mem_uniqueKeys {α : Type} [DecidableEq α] (l : List α) (x : α) :
    x ∈ uniqueKeys l ↔ x ∈ l := by
  rw [uniqueKeys, mem_uniqueKeysAux]
  simp

theorem nodup_uniqueKeysAux {α : Type} [DecidableEq α] (l : List α) :
    ∀ (acc : List α), acc.Nodup → (uniqueKeysAux l acc).Nodup := by
  induction l with
  | nil => intro acc h; rw [uniqueKeysAux]; exact List.nodup_reverse.mpr h
  | cons y ys ih =>
    intro acc h
    by_cases hy : y ∈ acc
    · rw [uniqueKeysAux, if_pos hy]; exact ih acc h
    · rw [uniqueKeysAux, if_neg hy]
      exact ih (y :: acc) (List.nodup_cons.mpr ⟨hy, h⟩)

theorem nodup_uniqueKeys {α : Type} [DecidableEq α] (l : List α) :
    (uniqueKeys l).Nodup :=
  nodup_uniqueKeysAux l [] List.nodup_nil

/-- A duplicate-free list whose members are exactly one element is that
singleton list. -/
theorem eq_singleton_of_nodup_mem {α : Type} (l : List α) (a : α)
    (hn : l.Nodup) (hm : ∀ x, x ∈ l ↔ x = a) : l = [a] := by
  have ha : a ∈ l := (hm a).mpr rfl
  cases l with
  | nil => cases ha
  | cons x xs =>
    have hx : x = a := (hm x).mp (List.mem_cons_self _ _)
    subst hx
    cases xs with
    | nil => rfl
    | cons y ys =>
      have hy : y = x := (hm y).mp (by simp)
      subst hy
      rw [List.nodup_cons] at hn
      exact absurd (List.mem_cons_self _ _) hn.1

/-- A duplicate-free list whose members are exactly two distinct elements is
one of the two orderings of the pair. -/
theorem eq_pair_of_nodup_mem {α : Type} (l : List α) (a b : α) (hab : a ≠ b)
    (hn : l.Nodup) (hm : ∀ x, x ∈ l ↔ (x = a ∨ x = b)) :
    l = [a, b] ∨ l = [b, a] := by
  have ha : a ∈ l := (hm a).mpr (Or.inl rfl)
  have hb : b ∈ l := (hm b).mpr (Or.inr rfl)
  cases l with
  | nil => cases ha
  | cons x xs =>
    rw [List.nodup_cons] at hn
    have hxs : xs = [a] ∨ xs = [b] → True := fun _ => trivial
    rcases (hm x).mp (List.mem_cons_self _ _) with rfl | rfl
    · left
      have : xs = [b] := by
        apply eq_singleton_of_nodup_mem xs b hn.2
        intro z
        constructor
        · intro hz
          rcases (hm z).mp (List.mem_cons_of_mem _ hz) with rfl | rfl
          · exact absurd hz hn.1
          · rfl
        · rintro rfl
          rcases List.mem_cons.mp hb with h | h
          · exact absurd h.symm hab
          · exact h
      rw [this]
    · right
      have : xs = [a] := by
        apply eq_singleton_of_nodup_mem xs a hn.2
        intro z
        constructor
        · intro hz
          rcases (hm z).mp (List.mem_cons_of_mem _ hz) with rfl | rfl
          · rfl
          · exact absurd hz hn.1
        · rintro rfl
          rcases List.mem_cons.mp ha with h | h
          · exact absurd h.symm hab.symm
          · exact h
      rw [this]

/-- Restatement of `List.count_cons` with a propositional if. -/
theorem count_cons_eq {α : Type} [DecidableEq α] (x r : α) (xs : List α) :
    (x :: xs).count r = xs.count r + if x = r then 1 else 0 := by
  rw [List.count_cons]
  by_cases h : x = r <;> simp [h]

/-- Two distinct elements cannot together occur more often than the list is
long. -/
theorem count_pair_le_length {α : Type} [DecidableEq α] (l : List α) (a b : α)
    (hab : a ≠ b) : l.count a + l.count b ≤ l.length := by
  induction l with
  | nil => simp
  | cons x xs ih =>
    rcases Decidable.em (x = a) with h1 | h1 <;>
      rcases Decidable.em (x = b) with h2 | h2
    · exact absurd (h1.symm.trans h2) hab
    all_goals simp [count_cons_eq, h1, h2, hab] <;> omega

/-- Three pairwise distinct elements cannot together occur more often than the
list is long. -/
theorem count_triple_le_length {α : Type} [DecidableEq α] (l : List α)
    (a b c : α) (hab : a ≠ b) (hac : a ≠ c) (hbc : b ≠ c) :
    l.count a + l.count b + l.count c ≤ l.length := by
  induction l with
  | nil => simp
  | cons x xs ih =>
    rcases Decidable.em (x = a) with h1 | h1 <;>
      rcases Decidable.em (x = b) with h2 | h2 <;>
        rcases Decidable.em (x = c) with h3 | h3
    all_goals first
      | exact absurd (h1.symm.trans h2) hab
      | exact absurd (h1.symm.trans h3) hac
      | exact absurd (h2.symm.trans h3) hbc
      | (simp [count_cons_eq, h1, h2, h3, hab, hac, hbc] <;> omega)

/-- `find?` returns the designated element when it is the only member
satisfying the predicate. -/
theorem find?_eq_some_of_mem_unique {α : Type} (l : List α) (p : α → Bool)
    (x : α) (hx : x ∈ l) (hpx : p x = true)
    (huniq : ∀ y ∈ l, p y = true → y = x) : l.find? p = some x := by
  induction l with
  | nil => cases hx
  | cons z zs ih =>
    by_cases hz : p z = true
    · have hzx : z = x := huniq z (List.mem_cons_self _ _) hz
      subst hzx
      exact List.find?_cons_of_pos _ hz
    · rw [List.find?_cons_of_neg _ hz]
      rcases List.mem_cons.mp hx with rfl | hx'
      · exact absurd hpx hz
      · exact ih hx' (fun y hy hp => huniq y (List.mem_cons_of_mem _ hy) hp)

theorem mem_counterItems (cards : List Card) (r : CardRank) (n : Nat) :
    (r, n) ∈ counterItems cards ↔
      r ∈ cards.map Card.rank ∧ n = (cards.map Card.rank).count r := by
  unfold counterItems
  rw [List.mem_map]
  constructor
  · rintro ⟨a, ha, heq⟩
    obtain ⟨rfl, rfl⟩ := Prod.mk.injEq .. ▸ heq
    exact ⟨(mem_uniqueKeys _ _).mp ha, rfl⟩
  · rintro ⟨hr, rfl⟩
    exact ⟨r, (mem_uniqueKeys _ _).mpr hr, rfl⟩

theorem ranksWithCount_eq_filter (cards : List Card) (k : Nat) :
    ranksWithCount cards k =
      (uniqueKeys (cards.map Card.rank)).filter
        (fun r => (cards.map Card.rank).count r == k) := by
  unfold ranksWithCount counterItems
  rw [List.filter_map, List.map_map]
  have hid : (Prod.fst ∘ fun r : CardRank =>
      (r, (cards.map Card.rank).count r)) = id := rfl
  rw [hid, List.map_id]
  rfl

theorem mem_ranksWithCount (cards : List Card) (k : Nat) (hk : 0 < k)
    (r : CardRank) :
    r ∈ ranksWithCount cards k ↔ (cards.map Card.rank).count r = k := by
  rw [ranksWithCount_eq_filter, List.mem_filter, mem_uniqueKeys]
  constructor
  · rintro ⟨_, h⟩
    simpa using h
  · intro h
    refine ⟨?_, by simp [h]⟩
    have : 0 < (cards.map Card.rank).count r := h ▸ hk
    exact List.count_pos_iff.mp this

theorem nodup_ranksWithCount (cards : List Card) (k : Nat) :
    (ranksWithCount cards k).Nodup := by
  rw [ranksWithCount_eq_filter]
  exact (nodup_uniqueKeys _).filter _

/-! Helper lemmas about the sorted views of a hand. -/

theorem mem_of_head?_eq_some {α : Type} (l : List α) (z : α)
    (h : l.head? = some z) : z ∈ l := by
  cases l with
  | nil => cases h
  | cons a as =>
    obtain rfl : a = z := by simpa using h
    exact List.mem_cons_self _ _

theorem mem_of_getLast?_eq_some {α : Type} :
    ∀ (l : List α) (z : α), l.getLast? = some z → z ∈ l := by
  intro l
  induction l with
  | nil => intro z hz; cases hz
  | cons a as ih =>
    intro z hz
    cases as with
    | nil =>
      obtain rfl : a = z := by simpa using hz
      exact List.mem_cons_self _ _
    | cons b bs =>
      rw [List.getLast?_cons_cons] at hz
      exact List.mem_cons_of_mem _ (ih z hz)

theorem sorted_head?_rel {α : Type} {r : α → α → Prop} [IsRefl α r]
    (l : List α) (hs : l.Sorted r) (hd : α) (hh : l.head? = some hd) :
    ∀ x ∈ l, r hd x := by
  cases l with
  | nil => cases hh
  | cons a as =>
    obtain rfl : a = hd := by simpa using hh
    intro x hx
    rcases List.mem_cons.mp hx with rfl | hx
    · exact IsRefl.refl x
    · exact (List.sorted_cons.mp hs).1 x hx

theorem sorted_getLast?_rel {α : Type} {r : α → α → Prop} [IsRefl α r] :
    ∀ (l : List α), l.Sorted r → ∀ z, l.getLast? = some z → ∀ x ∈ l, r x z := by
  intro l
  induction l with
  | nil => intro _ z hz; cases hz
  | cons a as ih =>
    intro hs z hz x hx
    cases as with
    | nil =>
      obtain rfl : a = z := by simpa using hz
      rcases List.mem_cons.mp hx with rfl | hx
      · exact IsRefl.refl _
      · cases hx
    | cons b bs =>
      rw [List.getLast?_cons_cons] at hz
      have hzmem : z ∈ b :: bs := mem_of_getLast?_eq_some _ z hz
      rcases List.mem_cons.mp hx with rfl | hx
      · exact (List.sorted_cons.mp hs).1 z hzmem
      · exact ih (List.sorted_cons.mp hs).2 z hz x hx

theorem sortCards_perm (cards : List Card) : (sortCards cards).Perm cards :=
  List.perm_insertionSort cardLE cards

theorem sortCards_sorted (cards : List Card) :
    (sortCards cards).Sorted cardLE :=
  List.sorted_insertionSort cardLE cards

theorem sortCardsDesc_perm (cards : List Card) : (sortCardsDesc cards).Perm cards :=
  List.perm_insertionSort cardGE cards

theorem sortCardsDesc_sorted (cards : List Card) :
    (sortCardsDesc cards).Sorted cardGE :=
  List.sorted_insertionSort cardGE cards

theorem sortCards_eq_of_perm (cards cards' : List Card) (h : cards.Perm cards') :
    sortCards cards = sortCards cards' :=
  List.eq_of_perm_of_sorted
    ((sortCards_perm cards).trans (h.trans (sortCards_perm cards').symm))
    (sortCards_sorted cards) (sortCards_sorted cards')

theorem sortCardsDesc_eq_of_perm (cards cards' : List Card)
    (h : cards.Perm cards') : sortCardsDesc cards = sortCardsDesc cards' :=
  List.eq_of_perm_of_sorted
    ((sortCardsDesc_perm cards).trans (h.trans (sortCardsDesc_perm cards').symm))
    (sortCardsDesc_sorted cards) (sortCardsDesc_sorted cards')

/-- `high_card` returns exactly the maximum card of the hand in the Python
tuple order. -/
theorem high_card_eq_some_iff (cards : List Card) (c : Card) :
    high_card cards = some c ↔ c ∈ cards ∧ ∀ x ∈ cards, cardLE x c := by
  unfold high_card
  constructor
  · intro h
    have hmem : c ∈ cards :=
      (sortCardsDesc_perm cards).mem_iff.mp (mem_of_head?_eq_some _ c h)
    refine ⟨hmem, fun x hx => ?_⟩
    exact sorted_head?_rel _ (sortCardsDesc_sorted cards) c h x
      ((sortCardsDesc_perm cards).mem_iff.mpr hx)
  · rintro ⟨hc, hmax⟩
    have hne : sortCardsDesc cards ≠ [] := by
      intro hnil
      have := (sortCardsDesc_perm cards).symm.mem_iff.mp hc
      rw [hnil] at this
      cases this
    obtain ⟨a, ha⟩ := Option.isSome_iff_exists.mp (List.head?_isSome.mpr hne)
    have hamem : a ∈ cards :=
      (sortCardsDesc_perm cards).mem_iff.mp (mem_of_head?_eq_some _ a ha)
    have hamax : ∀ x ∈ cards, cardLE x a := fun x hx =>
      sorted_head?_rel _ (sortCardsDesc_sorted cards) a ha x
        ((sortCardsDesc_perm cards).mem_iff.mpr hx)
    have : a = c := IsAntisymm.antisymm (r := cardLE) a c
      (hmax a hamem) (hamax c hc)
    rw [ha, this]

/-- The last card of the ascending sort is the same card `high_card`
returns. -/
theorem sortCards_getLast?_eq_high_card (cards : List Card) :
    (sortCards cards).getLast? = high_card cards := by
  by_cases hnil : cards = []
  · subst hnil; rfl
  · have hne : sortCards cards ≠ [] := by
      intro h0
      have hlen := (sortCards_perm cards).length_eq
      rw [h0] at hlen
      exact hnil (List.eq_nil_of_length_eq_zero hlen.symm)
    obtain ⟨m, hm⟩ :=
      Option.isSome_iff_exists.mp (List.getLast?_isSome.mpr hne)
    have hmm : m ∈ cards :=
      (sortCards_perm cards).mem_iff.mp (mem_of_getLast?_eq_some _ m hm)
    have hmax : ∀ x ∈ cards, cardLE x m := fun x hx =>
      sorted_getLast?_rel _ (sortCards_sorted cards) m hm x
        ((sortCards_perm cards).mem_iff.mpr hx)
    rw [hm, (high_card_eq_some_iff cards m).mpr ⟨hmm, hmax⟩]

/-- The duplicate scan of `is_straight` succeeds exactly when the hand's rank
list has a repeat. -/
theorem counterItems_any_iff (cards : List Card) :
    ((counterItems cards).any (fun p => decide (p.2 > 1)) = true) ↔
      ¬ (cards.map Card.rank).Nodup := by
  rw [List.any_eq_true]
  constructor
  · rintro ⟨⟨r, n⟩, hmem, hgt⟩
    rw [mem_counterItems] at hmem
    obtain ⟨hr, rfl⟩ := hmem
    intro hnd
    have hle := List.nodup_iff_count_le_one.mp hnd r
    simp only [decide_eq_true_eq] at hgt
    omega
  · intro hnd
    rw [List.nodup_iff_count_le_one] at hnd
    push_neg at hnd
    obtain ⟨r, hr⟩ := hnd
    refine ⟨(r, (cards.map Card.rank).count r), ?_, ?_⟩
    · rw [mem_counterItems]
      exact ⟨List.count_pos_iff.mp (by omega), rfl⟩
    · simp only [decide_eq_true_eq]
      omega

/-- The suit-set test of `is_flush`: the set of suits has size 1 exactly when
the hand is nonempty and single-suited. -/
theorem uniqueKeys_length_eq_one_iff {α : Type} [DecidableEq α] (l : List α) :
    (uniqueKeys l).length = 1 ↔ ∃ a, a ∈ l ∧ ∀ x ∈ l, x = a := by
  rw [List.length_eq_one]
  constructor
  · rintro ⟨a, ha⟩
    refine ⟨a, ?_, ?_⟩
    · have : a ∈ uniqueKeys l := by
        rw [ha]; exact List.mem_cons_self _ _
      exact (mem_uniqueKeys _ _).mp this
    · intro x hx
      have hxu : x ∈ uniqueKeys l := (mem_uniqueKeys _ _).mpr hx
      rw [ha] at hxu
      simpa using hxu
  · rintro ⟨a, ha, hall⟩
    refine ⟨a, eq_singleton_of_nodup_mem _ a (nodup_uniqueKeys l) ?_⟩
    intro x
    rw [mem_uniqueKeys]
    exact ⟨fun hx => hall x hx, fun hx => hx ▸ ha⟩

/-! Characterizations of the individual category checks. -/

theorem option_eq_of_some_iff {α : Type} (o₁ o₂ : Option α)
    (h : ∀ v, o₁ = some v ↔ o₂ = some v) : o₁ = o₂ := by
  cases o₁ with
  | some v => exact ((h v).mp rfl).symm
  | none =>
    cases o₂ with
    | none => rfl
    | some v => exact (h v).mpr rfl

/-- The `find?` scan over the multiplicity mapping used by the four- and
three-of-a-kind checks succeeds for `r` exactly when `r` has multiplicity
`k`, provided `k` is large enough (k ≥ 3) that at most one rank of a 5-card
hand can have it. -/
theorem counterItems_find?_eq_some_iff (cards : List Card) (k : Nat)
    (h5 : cards.length = 5) (hk : 3 ≤ k) (r : CardRank) :
    ((counterItems cards).find? (fun p => p.2 == k)).map Prod.fst = some r ↔
      (cards.map Card.rank).count r = k := by
  constructor
  · intro h
    obtain ⟨q, hq, hq1⟩ := Option.map_eq_some'.mp h
    have hpq := List.find?_some hq
    have hmem := List.mem_of_find?_eq_some hq
    obtain ⟨q1, q2⟩ := q
    rw [mem_counterItems] at hmem
    simp only at hq1
    subst hq1
    obtain ⟨_, rfl⟩ := hmem
    simpa using hpq
  · intro hcount
    have hrmem : r ∈ cards.map Card.rank :=
      List.count_pos_iff.mp (by omega)
    have hfind : (counterItems cards).find? (fun p => p.2 == k) =
        some (r, (cards.map Card.rank).count r) := by
      apply find?_eq_some_of_mem_unique
      · rw [mem_counterItems]
        exact ⟨hrmem, rfl⟩
      · simp [hcount]
      · rintro ⟨y1, y2⟩ hy hpy
        rw [mem_counterItems] at hy
        obtain ⟨hy1, rfl⟩ := hy
        simp only [beq_iff_eq] at hpy
        have hyr : y1 = r := by
          by_contra hne
          have hle := count_pair_le_length (cards.map Card.rank) y1 r hne
          rw [List.length_map, h5] at hle
          omega
        subst hyr
        rfl
    rw [hfind]
    simp

theorem is_four_of_a_kind_count_iff (cards : List Card)
    (h5 : cards.length = 5) (r : CardRank) :
    is_four_of_a_kind cards = some r ↔ (cards.map Card.rank).count r = 4 :=
  counterItems_find?_eq_some_iff cards 4 h5 (by omega) r

theorem is_three_of_a_kind_count_iff (cards : List Card)
    (h5 : cards.length = 5) (r : CardRank) :
    is_three_of_a_kind cards = some r ↔ (cards.map Card.rank).count r = 3 :=
  counterItems_find?_eq_some_iff cards 3 h5 (by omega) r

theorem ranksWithCount_eq_singleton_iff (cards : List Card) (k : Nat)
    (hk : 0 < k) (r : CardRank) :
    ranksWithCount cards k = [r] ↔
      ((cards.map Card.rank).count r = k ∧
       ∀ q, (cards.map Card.rank).count q = k → q = r) := by
  constructor
  · intro h
    have hr : r ∈ ranksWithCount cards k := by
      rw [h]; exact List.mem_cons_self _ _
    rw [mem_ranksWithCount _ _ hk] at hr
    refine ⟨hr, fun q hq => ?_⟩
    have hq' : q ∈ ranksWithCount cards k :=
      (mem_ranksWithCount _ _ hk _).mpr hq
    rw [h] at hq'
    simpa using hq'
  · rintro ⟨hr, huniq⟩
    apply eq_singleton_of_nodup_mem _ _ (nodup_ranksWithCount cards k)
    intro x
    rw [mem_ranksWithCount _ _ hk]
    exact ⟨fun hx => huniq x hx, fun hx => hx ▸ hr⟩

theorem is_one_pair_eq_some_iff_list (cards : List Card) (r : CardRank) :
    is_one_pair cards = some r ↔ totalPairs cards = [r] := by
  unfold is_one_pair
  cases h : totalPairs cards with
  | nil => simp
  | cons a as =>
    cases as with
    | nil => simp
    | cons b bs => simp

theorem is_one_pair_count_iff (cards : List Card) (r : CardRank) :
    is_one_pair cards = some r ↔
      ((cards.map Card.rank).count r = 2 ∧
       ∀ q, (cards.map Card.rank).count q = 2 → q = r) := by
  rw [is_one_pair_eq_some_iff_list]
  exact ranksWithCount_eq_singleton_iff cards 2 (by omega) r

theorem is_two_pairs_eq_some_iff_list (cards : List Card) (a b : CardRank) :
    is_two_pairs cards = some (a, b) ↔ totalPairs cards = [a, b] := by
  unfold is_two_pairs
  cases h : totalPairs cards with
  | nil => simp
  | cons x xs =>
    cases xs with
    | nil => simp
    | cons y ys =>
      cases ys with
      | nil => simp
      | cons z zs => simp

theorem totalPairs_mem_iff (cards : List Card) (x : CardRank) :
    x ∈ totalPairs cards ↔ (cards.map Card.rank).count x = 2 := by
  unfold totalPairs
  exact mem_ranksWithCount cards 2 (by omega) x

theorem totalPairs_pair_of_two (cards : List Card) (h5 : cards.length = 5)
    (a b : CardRank) (hab : a ≠ b)
    (ha : (cards.map Card.rank).count a = 2)
    (hb : (cards.map Card.rank).count b = 2) :
    totalPairs cards = [a, b] ∨ totalPairs cards = [b, a] := by
  apply eq_pair_of_nodup_mem _ a b hab
    (by unfold totalPairs; exact nodup_ranksWithCount cards 2)
  intro x
  rw [totalPairs_mem_iff]
  constructor
  · intro hx
    by_contra hne
    push_neg at hne
    obtain ⟨hxa, hxb⟩ := hne
    have hle := count_triple_le_length (cards.map Card.rank) x a b hxa hxb hab
    rw [List.length_map, h5] at hle
    omega
  · rintro (rfl | rfl) <;> assumption

theorem is_full_house_eq_some_iff_lists (cards : List Card) (t p : CardRank) :
    is_full_house cards = some (t, p) ↔
      ranksWithCount cards 3 = [t] ∧ ranksWithCount cards 2 = [p] := by
  unfold is_full_house
  cases h3 : ranksWithCount cards 3 with
  | nil => simp
  | cons x xs =>
    cases xs with
    | cons y ys => simp
    | nil =>
      cases h2 : ranksWithCount cards 2 with
      | nil => simp
      | cons u us =>
        cases us with
        | cons v vs => simp
        | nil => simp

theorem is_full_house_count_iff (cards : List Card) (h5 : cards.length = 5)
    (t p : CardRank) :
    is_full_house cards = some (t, p) ↔
      ((cards.map Card.rank).count t = 3 ∧
       (cards.map Card.rank).count p = 2) := by
  rw [is_full_house_eq_some_iff_lists]
  constructor
  · rintro ⟨h3, h2⟩
    exact ⟨((ranksWithCount_eq_singleton_iff cards 3 (by omega) t).mp h3).1,
      ((ranksWithCount_eq_singleton_iff cards 2 (by omega) p).mp h2).1⟩
  · rintro ⟨ht, hp⟩
    constructor
    · rw [ranksWithCount_eq_singleton_iff cards 3 (by omega) t]
      refine ⟨ht, fun q hq => ?_⟩
      by_contra hne
      have hle := count_pair_le_length (cards.map Card.rank) q t hne
      rw [List.length_map, h5] at hle
      omega
    · rw [ranksWithCount_eq_singleton_iff cards 2 (by omega) p]
      refine ⟨hp, fun q hq => ?_⟩
      by_contra hne
      have htq : t ≠ q := fun h => by rw [h] at ht; omega
      have htp : t ≠ p := fun h => by rw [h] at ht; omega
      have hle := count_triple_le_length (cards.map Card.rank) t q p htq htp hne
      rw [List.length_map, h5] at hle
      omega

theorem cardLE_rank_le (a b : Card) (h : cardLE a b) :
    a.rank.value ≤ b.rank.value := by
  unfold cardLE at h; omega

/-- Full characterization of `is_straight`: it succeeds with `r` exactly when
the hand has no repeated rank and the maximum rank value exceeds the minimum
by exactly 4, `r` being the maximum rank. -/
theorem is_straight_some_iff (cards : List Card) (h5 : cards.length = 5)
    (r : CardRank) :
    is_straight cards = some r ↔
      ((cards.map Card.rank).Nodup ∧
       r ∈ cards.map Card.rank ∧
       (∀ q ∈ cards.map Card.rank, q.value ≤ r.value) ∧
       (∃ m ∈ cards.map Card.rank,
         (∀ q ∈ cards.map Card.rank, m.value ≤ q.value) ∧
         r.value - m.value = 4)) := by
  unfold is_straight
  by_cases hdup : ((counterItems cards).any fun p => decide (p.2 > 1)) = true
  · rw [if_pos hdup]
    have hnd := (counterItems_any_iff cards).mp hdup
    constructor
    · intro h; cases h
    · rintro ⟨hnodup, -⟩
      exact absurd hnodup hnd
  · rw [if_neg hdup]
    have hnd : (cards.map Card.rank).Nodup := by
      by_contra hn
      exact hdup ((counterItems_any_iff cards).mpr hn)
    have hne : sortCards cards ≠ [] := by
      intro h0
      have hlen := (sortCards_perm cards).length_eq
      rw [h0, h5] at hlen
      cases hlen
    obtain ⟨cmin, hmin⟩ :=
      Option.isSome_iff_exists.mp (List.head?_isSome.mpr hne)
    obtain ⟨cmax, hmax⟩ :=
      Option.isSome_iff_exists.mp (List.getLast?_isSome.mpr hne)
    have hsrh : ((sortCards cards).map Card.rank).head? = some cmin.rank := by
      rw [List.head?_map, hmin]; rfl
    have hsrl : ((sortCards cards).map Card.rank).getLast? =
        some cmax.rank := by
      rw [List.getLast?_map, hmax]; rfl
    have hminmem : cmin ∈ cards :=
      (sortCards_perm cards).mem_iff.mp (mem_of_head?_eq_some _ cmin hmin)
    have hmaxmem : cmax ∈ cards :=
      (sortCards_perm cards).mem_iff.mp (mem_of_getLast?_eq_some _ cmax hmax)
    have hminrel : ∀ x ∈ cards, cardLE cmin x := fun x hx =>
      sorted_head?_rel _ (sortCards_sorted cards) cmin hmin x
        ((sortCards_perm cards).mem_iff.mpr hx)
    have hmaxrel : ∀ x ∈ cards, cardLE x cmax := fun x hx =>
      sorted_getLast?_rel _ (sortCards_sorted cards) cmax hmax x
        ((sortCards_perm cards).mem_iff.mpr hx)
    have hmaxrankmem : cmax.rank ∈ cards.map Card.rank :=
      List.mem_map_of_mem _ hmaxmem
    have hminrankmem : cmin.rank ∈ cards.map Card.rank :=
      List.mem_map_of_mem _ hminmem
    have hmaxrank : ∀ q ∈ cards.map Card.rank, q.value ≤ cmax.rank.value := by
      intro q hq
      obtain ⟨x, hx, rfl⟩ := List.mem_map.mp hq
      exact cardLE_rank_le _ _ (hmaxrel x hx)
    have hminrank : ∀ q ∈ cards.map Card.rank, cmin.rank.value ≤ q.value := by
      intro q hq
      obtain ⟨x, hx, rfl⟩ := List.mem_map.mp hq
      exact cardLE_rank_le _ _ (hminrel x hx)
    rw [hsrh, hsrl]
    show (if (cmax.rank.value : Int) - (cmin.rank.value : Int) = 4 then
        some cmax.rank else none) = some r ↔ _
    by_cases hspan :
        (cmax.rank.value : Int) - (cmin.rank.value : Int) = 4
    · rw [if_pos hspan]
      have hvle : cmin.rank.value ≤ cmax.rank.value :=
        hminrank _ hmaxrankmem
      constructor
      · intro h
        obtain rfl : cmax.rank = r := Option.some.inj h
        exact ⟨hnd, hmaxrankmem, hmaxrank,
          cmin.rank, hminrankmem, hminrank, by omega⟩
      · rintro ⟨-, hrmem, hrmax, m, hmmem, hmmin, -⟩
        have : r = cmax.rank :=
          rankValue_inj _ _
            (Nat.le_antisymm (hmaxrank r hrmem) (hrmax _ hmaxrankmem))
        rw [this]
    · rw [if_neg hspan]
      constructor
      · intro h; cases h
      · rintro ⟨-, hrmem, hrmax, m, hmmem, hmmin, hdiff⟩
        exfalso
        have h1 : r.value = cmax.rank.value :=
          Nat.le_antisymm (hmaxrank r hrmem) (hrmax _ hmaxrankmem)
        have h2 : m.value = cmin.rank.value :=
          Nat.le_antisymm (hmmin _ hminrankmem) (hminrank m hmmem)
        have hvle : cmin.rank.value ≤ cmax.rank.value :=
          hminrank _ hmaxrankmem
        omega

/-- `is_flush` rewritten through `high_card`: the card whose rank it returns
is the maximum card of the hand. -/
theorem is_flush_eq (cards : List Card) :
    is_flush cards =
      (if (uniqueKeys (cards.map Card.suit)).length == 1 then
        (high_card cards).map Card.rank
      else none) := by
  unfold is_flush
  rw [sortCards_getLast?_eq_high_card]

theorem is_flush_cond_iff (cards : List Card) :
    ((uniqueKeys (cards.map Card.suit)).length == 1) = true ↔
      ∃ s, s ∈ cards.map Card.suit ∧ ∀ u ∈ cards.map Card.suit, u = s := by
  rw [beq_iff_eq]
  exact uniqueKeys_length_eq_one_iff _

/-! Permutation invariance of the checks. -/

theorem high_card_perm (cards cards' : List Card) (hp : cards.Perm cards') :
    high_card cards = high_card cards' := by
  unfold high_card
  rw [sortCardsDesc_eq_of_perm _ _ hp]

theorem counterItems_any_eq_of_perm (cards cards' : List Card)
    (hp : cards.Perm cards') :
    ((counterItems cards).any fun p => decide (p.2 > 1)) =
      ((counterItems cards').any fun p => decide (p.2 > 1)) := by
  have hiff : (((counterItems cards).any fun p => decide (p.2 > 1)) = true) ↔
      (((counterItems cards').any fun p => decide (p.2 > 1)) = true) := by
    rw [counterItems_any_iff, counterItems_any_iff,
      (hp.map Card.rank).nodup_iff]
  cases h1 : (counterItems cards).any fun p => decide (p.2 > 1) <;>
    cases h2 : (counterItems cards').any fun p => decide (p.2 > 1) <;>
    simp_all

theorem is_straight_perm (cards cards' : List Card) (hp : cards.Perm cards') :
    is_straight cards = is_straight cards' := by
  unfold is_straight
  rw [sortCards_eq_of_perm _ _ hp, counterItems_any_eq_of_perm _ _ hp]

theorem is_flush_perm (cards cards' : List Card) (hp : cards.Perm cards') :
    is_flush cards = is_flush cards' := by
  rw [is_flush_eq, is_flush_eq, high_card_perm _ _ hp]
  have hiff : (((uniqueKeys (cards.map Card.suit)).length == 1) = true) ↔
      (((uniqueKeys (cards'.map Card.suit)).length == 1) = true) := by
    rw [is_flush_cond_iff, is_flush_cond_iff]
    constructor
    · rintro ⟨s, hs, hall⟩
      exact ⟨s, (hp.map Card.suit).mem_iff.mp hs,
        fun u hu => hall u ((hp.map Card.suit).mem_iff.mpr hu)⟩
    · rintro ⟨s, hs, hall⟩
      exact ⟨s, (hp.map Card.suit).mem_iff.mpr hs,
        fun u hu => hall u ((hp.map Card.suit).mem_iff.mp hu)⟩
  cases h1 : (uniqueKeys (cards.map Card.suit)).length == 1 <;>
    cases h2 : (uniqueKeys (cards'.map Card.suit)).length == 1 <;>
    simp_all

theorem is_straight_flush_perm (cards cards' : List Card)
    (hp : cards.Perm cards') :
    is_straight_flush cards = is_straight_flush cards' := by
  unfold is_straight_flush
  rw [is_straight_perm _ _ hp, is_flush_perm _ _ hp, high_card_perm _ _ hp]

theorem is_four_of_a_kind_perm (cards cards' : List Card)
    (h5 : cards.length = 5) (hp : cards.Perm cards') :
    is_four_of_a_kind cards = is_four_of_a_kind cards' := by
  have h5' : cards'.length = 5 := hp.length_eq ▸ h5
  apply option_eq_of_some_iff
  intro v
  rw [is_four_of_a_kind_count_iff _ h5, is_four_of_a_kind_count_iff _ h5',
    (hp.map Card.rank).count_eq]

theorem is_three_of_a_kind_perm (cards cards' : List Card)
    (h5 : cards.length = 5) (hp : cards.Perm cards') :
    is_three_of_a_kind cards = is_three_of_a_kind cards' := by
  have h5' : cards'.length = 5 := hp.length_eq ▸ h5
  apply option_eq_of_some_iff
  intro v
  rw [is_three_of_a_kind_count_iff _ h5, is_three_of_a_kind_count_iff _ h5',
    (hp.map Card.rank).count_eq]

theorem is_full_house_perm (cards cards' : List Card)
    (h5 : cards.length = 5) (hp : cards.Perm cards') :
    is_full_house cards = is_full_house cards' := by
  have h5' : cards'.length = 5 := hp.length_eq ▸ h5
  apply option_eq_of_some_iff
  rintro ⟨t, p⟩
  rw [is_full_house_count_iff _ h5, is_full_house_count_iff _ h5',
    (hp.map Card.rank).count_eq, (hp.map Card.rank).count_eq]

theorem is_one_pair_perm (cards cards' : List Card) (hp : cards.Perm cards') :
    is_one_pair cards = is_one_pair cards' := by
  apply option_eq_of_some_iff
  intro v
  rw [is_one_pair_count_iff, is_one_pair_count_iff]
  constructor
  · rintro ⟨h1, h2⟩
    exact ⟨(hp.map Card.rank).count_eq v ▸ h1,
      fun q hq => h2 q ((hp.map Card.rank).count_eq q ▸ hq)⟩
  · rintro ⟨h1, h2⟩
    exact ⟨((hp.map Card.rank).count_eq v).symm ▸ h1,
      fun q hq => h2 q (((hp.map Card.rank).count_eq q).symm ▸ hq)⟩

theorem is_two_pairs_isSome_iff (cards : List Card) (h5 : cards.length = 5) :
    (is_two_pairs cards).isSome = true ↔
      ∃ a b, a ≠ b ∧ (cards.map Card.rank).count a = 2 ∧
        (cards.map Card.rank).count b = 2 := by
  constructor
  · intro h
    obtain ⟨⟨a, b⟩, hab⟩ := Option.isSome_iff_exists.mp h
    rw [is_two_pairs_eq_some_iff_list] at hab
    have hnodup : (totalPairs cards).Nodup := by
      unfold totalPairs; exact nodup_ranksWithCount cards 2
    rw [hab] at hnodup
    have hane : a ≠ b := by
      rw [List.nodup_cons] at hnodup
      intro hcontra
      exact hnodup.1 (hcontra ▸ List.mem_cons_self _ _)
    have ha : (cards.map Card.rank).count a = 2 :=
      (totalPairs_mem_iff cards a).mp (by rw [hab]; simp)
    have hb : (cards.map Card.rank).count b = 2 :=
      (totalPairs_mem_iff cards b).mp (by rw [hab]; simp)
    exact ⟨a, b, hane, ha, hb⟩
  · rintro ⟨a, b, hab, ha, hb⟩
    rcases totalPairs_pair_of_two cards h5 a b hab ha hb with h | h <;>
      (unfold is_two_pairs; rw [h]; rfl)

theorem is_two_pairs_isSome_perm (cards cards' : List Card)
    (h5 : cards.length = 5) (hp : cards.Perm cards') :
    (is_two_pairs cards).isSome = (is_two_pairs cards').isSome := by
  have h5' : cards'.length = 5 := hp.length_eq ▸ h5
  have hiff : ((is_two_pairs cards).isSome = true) ↔
      ((is_two_pairs cards').isSome = true) := by
    rw [is_two_pairs_isSome_iff _ h5, is_two_pairs_isSome_iff _ h5']
    constructor
    · rintro ⟨a, b, h1, h2, h3⟩
      exact ⟨a, b, h1, (hp.map Card.rank).count_eq a ▸ h2,
        (hp.map Card.rank).count_eq b ▸ h3⟩
    · rintro ⟨a, b, h1, h2, h3⟩
      exact ⟨a, b, h1, ((hp.map Card.rank).count_eq a).symm ▸ h2,
        ((hp.map Card.rank).count_eq b).symm ▸ h3⟩
  cases hx : (is_two_pairs cards).isSome <;>
    cases hy : (is_two_pairs cards').isSome <;> simp_all

/-! The high-card query and the straight-flush check. -/

theorem high_card_isSome (cards : List Card) (hne : cards ≠ []) :
    ∃ c, high_card cards = some c := by
  unfold high_card
  apply Option.isSome_iff_exists.mp
  apply List.head?_isSome.mpr
  intro h0
  have hlen := (sortCardsDesc_perm cards).length_eq
  rw [h0] at hlen
  exact hne (List.eq_nil_of_length_eq_zero hlen.symm)

/-- The rank of the high card is the maximum rank of the hand. -/
theorem high_card_rank_iff (cards : List Card) (hne : cards ≠ [])
    (r : CardRank) :
    (high_card cards).map Card.rank = some r ↔
      (r ∈ cards.map Card.rank ∧
       ∀ q ∈ cards.map Card.rank, q.value ≤ r.value) := by
  obtain ⟨c, hc⟩ := high_card_isSome cards hne
  obtain ⟨hcmem, hcmax⟩ := (high_card_eq_some_iff cards c).mp hc
  have hcrank : ∀ q ∈ cards.map Card.rank, q.value ≤ c.rank.value := by
    intro q hq
    obtain ⟨x, hx, rfl⟩ := List.mem_map.mp hq
    exact cardLE_rank_le _ _ (hcmax x hx)
  rw [hc]
  show some c.rank = some r ↔ _
  constructor
  · intro h
    obtain rfl : c.rank = r := Option.some.inj h
    exact ⟨List.mem_map_of_mem _ hcmem, hcrank⟩
  · rintro ⟨hrmem, hrmax⟩
    have : c.rank = r :=
      rankValue_inj _ _
        (Nat.le_antisymm (hrmax _ (List.mem_map_of_mem _ hcmem))
          (hcrank r hrmem))
    rw [this]

/-- Full characterization of `is_straight_flush`: both sub-checks must hold
and the returned rank is the maximum rank of the hand. -/
theorem is_straight_flush_some_iff (cards : List Card)
    (h5 : cards.length = 5) (r : CardRank) :
    is_straight_flush cards = some r ↔
      ((is_straight cards).isSome ∧ (is_flush cards).isSome ∧
       r ∈ cards.map Card.rank ∧
       ∀ q ∈ cards.map Card.rank, q.value ≤ r.value) := by
  unfold is_straight_flush
  have hne : cards ≠ [] := by
    intro h0; rw [h0] at h5; cases h5
  by_cases hcond :
      ((is_straight cards).isSome && (is_flush cards).isSome) = true
  · rw [if_pos hcond]
    rw [Bool.and_eq_true] at hcond
    rw [high_card_rank_iff cards hne r]
    constructor
    · intro h
      exact ⟨hcond.1, hcond.2, h.1, h.2⟩
    · rintro ⟨-, -, h1, h2⟩
      exact ⟨h1, h2⟩
  · rw [if_neg hcond]
    constructor
    · intro h; cases h
    · rintro ⟨h1, h2, -⟩
      exact absurd (by rw [Bool.and_eq_true]; exact ⟨h1, h2⟩) hcond

/-! The top-level evaluation. -/

/-- `evaluate` implements the spec's ordered-first-match `classify`. -/
theorem evaluate_eq_classifySpec (cards : List Card) :
    evaluate cards = classifySpec cards := by
  unfold evaluate classifySpec orderedChecks
  cases h1 : is_straight_flush cards with
  | some r => simp [h1]
  | none =>
  cases h2 : is_four_of_a_kind cards with
  | some r => simp [h1, h2]
  | none =>
  cases h3 : is_full_house cards with
  | some q => simp [h1, h2, h3]
  | none =>
  cases h4 : is_flush cards with
  | some r => simp [h1, h2, h3, h4]
  | none =>
  cases h5 : is_straight cards with
  | some r => simp [h1, h2, h3, h4, h5]
  | none =>
  cases h6 : is_three_of_a_kind cards with
  | some r => simp [h1, h2, h3, h4, h5, h6]
  | none =>
  cases h7 : is_two_pairs cards with
  | some q => simp [h1, h2, h3, h4, h5, h6, h7]
  | none =>
  cases h8 : is_one_pair cards with
  | some r => simp [h1, h2, h3, h4, h5, h6, h7, h8]
  | none =>
    cases hhc : high_card cards <;>
      simp [h1, h2, h3, h4, h5, h6, h7, h8, hhc]

/-- Every 5-card hand gets a classification: the `high_card` fallback cannot
fail on a nonempty hand. -/
theorem evaluate_isSome (cards : List Card) (h5 : cards.length = 5) :
    ∃ cl, evaluate cards = some cl := by
  have hne : cards ≠ [] := by
    intro h0; rw [h0] at h5; cases h5
  obtain ⟨c, hc⟩ := high_card_isSome cards hne
  unfold evaluate
  cases h1 : is_straight_flush cards with
  | some r => exact ⟨_, rfl⟩
  | none =>
  cases h2 : is_four_of_a_kind cards with
  | some r => exact ⟨_, rfl⟩
  | none =>
  cases h3 : is_full_house cards with
  | some q => exact ⟨_, rfl⟩
  | none =>
  cases h4 : is_flush cards with
  | some r => exact ⟨_, rfl⟩
  | none =>
  cases h5' : is_straight cards with
  | some r => exact ⟨_, rfl⟩
  | none =>
  cases h6 : is_three_of_a_kind cards with
  | some r => exact ⟨_, rfl⟩
  | none =>
  cases h7 : is_two_pairs cards with
  | some q => exact ⟨_, rfl⟩
  | none =>
  cases h8 : is_one_pair cards with
  | some r => exact ⟨_, rfl⟩
  | none =>
    refine ⟨Classification.HighCard c, ?_⟩
    show (high_card cards).map Classification.HighCard = _
    rw [hc]
    rfl

/-! Theorems settling the claims. -/

/-- C1: for every well-formed 5-card hand, the evaluation produces exactly one
classification, chosen by testing the category checks in the strict precedence
order StraightFlush > FourOfAKind > FullHouse > Flush > Straight >
ThreeOfAKind > TwoPair > OnePair > HighCard and stopping at the first matching
check (`classifySpec` is that ordered first-match); HighCard is always the
fallback, so no hand is unclassifiable. -/
theorem evaluate_single_classification_in_precedence_order
    (cards : List Card) (h5 : cards.length = 5) :
    evaluate cards = classifySpec cards ∧ ∃! cl, evaluate cards = some cl := by
  refine ⟨evaluate_eq_classifySpec cards, ?_⟩
  obtain ⟨cl, hcl⟩ := evaluate_isSome cards h5
  exact ⟨cl, hcl, fun y hy => by
    rw [hcl] at hy
    exact (Option.some.inj hy).symm⟩

theorem evaluate_single_classification_witness :
    straightHand.length = 5 ∧
      (evaluate straightHand = classifySpec straightHand ∧
       ∃! cl, evaluate straightHand = some cl) :=
  ⟨by decide,
   evaluate_single_classification_in_precedence_order straightHand (by decide)⟩

/-- C2: the Straight check matches exactly when no rank occurs more than once
and the maximum rank value minus the minimum rank value equals 4, and on a
match it returns the highest rank of the hand; the hand need not be sorted by
the caller. -/
theorem is_straight_matches_iff_consecutive (cards : List Card)
    (h5 : cards.length = 5) (r : CardRank) :
    is_straight cards = some r ↔
      ((cards.map Card.rank).Nodup ∧
       r ∈ cards.map Card.rank ∧
       (∀ q ∈ cards.map Card.rank, q.value ≤ r.value) ∧
       (∃ m ∈ cards.map Card.rank,
         (∀ q ∈ cards.map Card.rank, m.value ≤ q.value) ∧
         r.value - m.value = 4)) :=
  is_straight_some_iff cards h5 r

theorem is_straight_matches_iff_consecutive_witness :
    straightHand.length = 5 ∧ is_straight straightHand = some CardRank.SEVEN :=
  ⟨by decide,
   (is_straight_matches_iff_consecutive straightHand (by decide)
     CardRank.SEVEN).mpr (by decide)⟩

/-- C3: a hand whose ranks are exactly Ace, 2, 3, 4, 5 (no duplicates) and
which is not single-suited is not a Straight and is classified HighCard with
the Ace as high card: wheel straights are not recognized, the Ace sorting
strictly highest. -/
theorem wheel_hand_is_high_card_ace (cards : List Card)
    (h5 : cards.length = 5)
    (hranks : (cards.map Card.rank).Perm
      [CardRank.ACE, CardRank.DEUCE, CardRank.TREY, CardRank.FOUR,
       CardRank.FIVE])
    (hsuits : ¬ ∃ s, ∀ x ∈ cards, x.suit = s) :
    is_straight cards = none ∧
      ∃ c, evaluate cards = some (Classification.HighCard c) ∧
        c.rank = CardRank.ACE := by
  have hcount : ∀ q, (cards.map Card.rank).count q =
      [CardRank.ACE, CardRank.DEUCE, CardRank.TREY, CardRank.FOUR,
       CardRank.FIVE].count q := fun q => hranks.count_eq q
  have hcountle : ∀ q, (cards.map Card.rank).count q ≤ 1 := by
    intro q
    rw [hcount q]
    have hd : ∀ q : CardRank, [CardRank.ACE, CardRank.DEUCE, CardRank.TREY,
        CardRank.FOUR, CardRank.FIVE].count q ≤ 1 := by decide
    exact hd q
  have hAmem : CardRank.ACE ∈ cards.map Card.rank :=
    hranks.mem_iff.mpr (by decide)
  have hDmem : CardRank.DEUCE ∈ cards.map Card.rank :=
    hranks.mem_iff.mpr (by decide)
  have hvalle : ∀ q ∈ cards.map Card.rank, q.value ≤ 14 := by
    intro q hq
    have hd : ∀ q : CardRank, q.value ≤ 14 := by decide
    exact hd q
  have hvalge : ∀ q ∈ cards.map Card.rank, 2 ≤ q.value := by
    intro q hq
    have hd : ∀ q : CardRank, 2 ≤ q.value := by decide
    exact hd q
  have hstraight : is_straight cards = none := by
    cases hs : is_straight cards with
    | none => rfl
    | some r =>
      exfalso
      obtain ⟨hnd, hrmem, hrmax, m, hmmem, hmmin, hdiff⟩ :=
        (is_straight_some_iff cards h5 r).mp hs
      have h14 : r.value = 14 :=
        Nat.le_antisymm (hvalle r hrmem) (hrmax _ hAmem)
      have h2 : m.value = 2 :=
        Nat.le_antisymm (hmmin _ hDmem) (hvalge m hmmem)
      omega
  have hfour : is_four_of_a_kind cards = none := by
    cases hf : is_four_of_a_kind cards with
    | none => rfl
    | some r =>
      have hc := (is_four_of_a_kind_count_iff cards h5 r).mp hf
      have hle := hcountle r
      omega
  have hthree : is_three_of_a_kind cards = none := by
    cases hf : is_three_of_a_kind cards with
    | none => rfl
    | some r =>
      have hc := (is_three_of_a_kind_count_iff cards h5 r).mp hf
      have hle := hcountle r
      omega
  have hfh : is_full_house cards = none := by
    cases hf : is_full_house cards with
    | none => rfl
    | some q =>
      obtain ⟨t, p⟩ := q
      have hc := (is_full_house_count_iff cards h5 t p).mp hf
      have hle := hcountle t
      omega
  have htp0 : totalPairs cards = [] := by
    rw [List.eq_nil_iff_forall_not_mem]
    intro x hx
    rw [totalPairs_mem_iff] at hx
    have hle := hcountle x
    omega
  have htwo : is_two_pairs cards = none := by
    unfold is_two_pairs
    rw [htp0]
  have hone : is_one_pair cards = none := by
    unfold is_one_pair
    rw [htp0]
  have hflush : is_flush cards = none := by
    have hcond : ¬ (((uniqueKeys (cards.map Card.suit)).length == 1) = true) := by
      rw [is_flush_cond_iff]
      rintro ⟨s, hs, hall⟩
      exact hsuits ⟨s, fun x hx => hall x.suit (List.mem_map_of_mem _ hx)⟩
    rw [is_flush_eq, if_neg hcond]
  have hsf : is_straight_flush cards = none := by
    unfold is_straight_flush
    rw [hstraight]
    rfl
  refine ⟨hstraight, ?_⟩
  have hne : cards ≠ [] := by
    intro h0; rw [h0] at h5; cases h5
  obtain ⟨c, hc⟩ := high_card_isSome cards hne
  refine ⟨c, ?_, ?_⟩
  · rw [evaluate_eq_classifySpec]
    unfold classifySpec orderedChecks
    simp [hsf, hfour, hfh, hflush, hstraight, hthree, htwo, hone, hc]
  · have hmax := (high_card_rank_iff cards hne CardRank.ACE).mpr
      ⟨hAmem, fun q hq => hvalle q hq⟩
    rw [hc] at hmax
    exact Option.some.inj hmax

theorem wheel_hand_is_high_card_ace_witness :
    wheelHand.length = 5 ∧
      (is_straight wheelHand = none ∧
       ∃ c, evaluate wheelHand = some (Classification.HighCard c) ∧
         c.rank = CardRank.ACE) :=
  ⟨by decide,
   wheel_hand_is_high_card_ace wheelHand (by decide) (List.Perm.refl _)
     (by decide)⟩

/-- C4 counterexample: on the hand 2♣ 2♦ K♣ K♦ 5♣ the TwoPair check returns
(DEUCE, KING): the first component is the lower pair rank, refuting the claim
that the first component is always the greater. -/
theorem is_two_pairs_not_higher_first :
    is_two_pairs twoPairHand = some (CardRank.DEUCE, CardRank.KING) ∧
      CardRank.DEUCE.value < CardRank.KING.value := by decide

/-- C4 (amended): the TwoPair check matches exactly the 5-card hands with two
distinct ranks of multiplicity 2 and returns those two ranks — but ordered by
first occurrence in the hand (a sublist of the Counter key order), not as
(higher, lower); every other hand gives no result. -/
theorem is_two_pairs_characterization (cards : List Card)
    (h5 : cards.length = 5) :
    (∀ a b, is_two_pairs cards = some (a, b) →
      (a ≠ b ∧ (cards.map Card.rank).count a = 2 ∧
       (cards.map Card.rank).count b = 2 ∧
       [a, b].Sublist (uniqueKeys (cards.map Card.rank)))) ∧
    ((is_two_pairs cards).isSome ↔
      ∃ a b, a ≠ b ∧ (cards.map Card.rank).count a = 2 ∧
        (cards.map Card.rank).count b = 2) := by
  constructor
  · intro a b hab
    rw [is_two_pairs_eq_some_iff_list] at hab
    have hnodup : (totalPairs cards).Nodup := by
      unfold totalPairs; exact nodup_ranksWithCount cards 2
    have hsub : (totalPairs cards).Sublist
        (uniqueKeys (cards.map Card.rank)) := by
      unfold totalPairs
      rw [ranksWithCount_eq_filter]
      exact List.filter_sublist _
    rw [hab] at hnodup hsub
    refine ⟨?_, ?_, ?_, hsub⟩
    · rw [List.nodup_cons] at hnodup
      intro hcontra
      exact hnodup.1 (hcontra ▸ List.mem_cons_self _ _)
    · exact (totalPairs_mem_iff cards a).mp (by rw [hab]; simp)
    · exact (totalPairs_mem_iff cards b).mp (by rw [hab]; simp)
  · exact is_two_pairs_isSome_iff cards h5

theorem is_two_pairs_characterization_witness :
    twoPairHand.length = 5 ∧ (is_two_pairs twoPairHand).isSome = true :=
  ⟨by decide,
   ((is_two_pairs_characterization twoPairHand (by decide)).2).mpr
     ⟨CardRank.DEUCE, CardRank.KING, by decide, by decide, by decide⟩⟩

/-- C5 counterexample: is_two_pairs is not order-independent: permuting
2♣ 2♦ K♣ K♦ 5♣ so that a king comes first swaps the components of the
returned pair. -/
theorem is_two_pairs_order_dependent :
    twoPairHand.Perm twoPairHandSwapped ∧
      is_two_pairs twoPairHand = some (CardRank.DEUCE, CardRank.KING) ∧
      is_two_pairs twoPairHandSwapped =
        some (CardRank.KING, CardRank.DEUCE) := by
  refine ⟨?_, by decide, by decide⟩
  show List.Perm
    [(⟨.DEUCE, .CLUBS⟩ : Card), ⟨.DEUCE, .DIAMONDS⟩, ⟨.KING, .CLUBS⟩,
     ⟨.KING, .DIAMONDS⟩, ⟨.FIVE, .CLUBS⟩]
    [⟨.KING, .CLUBS⟩, ⟨.DEUCE, .CLUBS⟩, ⟨.DEUCE, .DIAMONDS⟩,
     ⟨.KING, .DIAMONDS⟩, ⟨.FIVE, .CLUBS⟩]
  exact ((List.Perm.swap _ _ _).cons _).trans (List.Perm.swap _ _ _)

/-- C5 (amended): every category check of the evaluator is order-independent
on 5-card hands, except that is_two_pairs is order-independent only in
whether it matches: the order of the returned pair of ranks depends on the
card order. -/
theorem checks_order_independent (cards cards' : List Card)
    (h5 : cards.length = 5) (hp : cards.Perm cards') :
    is_straight_flush cards = is_straight_flush cards' ∧
    is_four_of_a_kind cards = is_four_of_a_kind cards' ∧
    is_full_house cards = is_full_house cards' ∧
    is_flush cards = is_flush cards' ∧
    is_straight cards = is_straight cards' ∧
    is_three_of_a_kind cards = is_three_of_a_kind cards' ∧
    (is_two_pairs cards).isSome = (is_two_pairs cards').isSome ∧
    is_one_pair cards = is_one_pair cards' ∧
    high_card cards = high_card cards' :=
  ⟨is_straight_flush_perm _ _ hp, is_four_of_a_kind_perm _ _ h5 hp,
   is_full_house_perm _ _ h5 hp, is_flush_perm _ _ hp,
   is_straight_perm _ _ hp, is_three_of_a_kind_perm _ _ h5 hp,
   is_two_pairs_isSome_perm _ _ h5 hp, is_one_pair_perm _ _ hp,
   high_card_perm _ _ hp⟩

theorem checks_order_independent_witness :
    twoPairHand.length = 5 ∧
      is_four_of_a_kind twoPairHand = is_four_of_a_kind twoPairHandSwapped :=
  ⟨by decide,
   (checks_order_independent twoPairHand twoPairHandSwapped (by decide)
     (((List.Perm.swap _ _ _).cons _).trans (List.Perm.swap _ _ _))).2.1⟩

/-- C6 (code bug exhibit): with exactly one card remaining the requested
count 1 does not exceed the remaining supply, yet both deal_card and
deal_cards(1) raise OutOfCards, because the guard demands
len(cards) - n > 0 instead of >= 0. -/
theorem deal_exact_remaining_raises_out_of_cards :
    (1 : Nat) ≤ ([(⟨CardRank.ACE, CardSuit.SPADES⟩ : Card)]).length ∧
    (deal_card [⟨CardRank.ACE, CardSuit.SPADES⟩]).1 =
      Except.error DeckError.outOfCards ∧
    (deal_cards [⟨CardRank.ACE, CardSuit.SPADES⟩] 1).1 =
      Except.error DeckError.outOfCards :=
  ⟨by decide, rfl, rfl⟩

/-- C7: the StraightFlush check matches exactly when both the Straight check
and the Flush check match on the same hand, and on a match it returns the
highest rank among the 5 cards. -/
theorem is_straight_flush_iff_straight_and_flush (cards : List Card)
    (h5 : cards.length = 5) (r : CardRank) :
    is_straight_flush cards = some r ↔
      ((is_straight cards).isSome ∧ (is_flush cards).isSome ∧
       r ∈ cards.map Card.rank ∧
       ∀ q ∈ cards.map Card.rank, q.value ≤ r.value) :=
  is_straight_flush_some_iff cards h5 r

theorem is_straight_flush_iff_straight_and_flush_witness :
    straightFlushHand.length = 5 ∧
      is_straight_flush straightFlushHand = some CardRank.QUEEN :=
  ⟨by decide,
   (is_straight_flush_iff_straight_and_flush straightFlushHand (by decide)
     CardRank.QUEEN).mpr (by decide)⟩

/-- C8: the FullHouse check matches exactly the 5-card hands with one rank of
multiplicity 3 and one of multiplicity 2, returning (tripRank, pairRank) with
the multiplicity-3 rank first — never swapped — and no result otherwise; the
count-based right-hand side is independent of the card order. -/
theorem is_full_house_attribution (cards : List Card)
    (h5 : cards.length = 5) (t p : CardRank) :
    is_full_house cards = some (t, p) ↔
      ((cards.map Card.rank).count t = 3 ∧
       (cards.map Card.rank).count p = 2) :=
  is_full_house_count_iff cards h5 t p

theorem is_full_house_attribution_witness :
    fullHouseHand.length = 5 ∧
      is_full_house fullHouseHand = some (CardRank.ACE, CardRank.KING) :=
  ⟨by decide,
   (is_full_house_attribution fullHouseHand (by decide) CardRank.ACE
     CardRank.KING).mpr (by decide)⟩

/-- C9 counterexample: on the full house A A A K K the ThreeOfAKind check
does match (returning ACE), refuting the claim that it requires the absence
of a multiplicity-2 rank. -/
theorem is_three_of_a_kind_matches_full_house :
    is_full_house fullHouseHand = some (CardRank.ACE, CardRank.KING) ∧
      is_three_of_a_kind fullHouseHand = some CardRank.ACE := by decide

/-- C9 (amended): the ThreeOfAKind check matches exactly when some rank
(necessarily unique in a 5-card hand) has multiplicity 3, returning that
rank, regardless of whether a multiplicity-2 rank is also present; the
full-house exclusion happens only through evaluate's precedence order. -/
theorem is_three_of_a_kind_matches_any_trips (cards : List Card)
    (h5 : cards.length = 5) (r : CardRank) :
    is_three_of_a_kind cards = some r ↔ (cards.map Card.rank).count r = 3 :=
  is_three_of_a_kind_count_iff cards h5 r

theorem is_three_of_a_kind_matches_any_trips_witness :
    threeOfAKindHand.length = 5 ∧
      is_three_of_a_kind threeOfAKindHand = some CardRank.SEVEN :=
  ⟨by decide,
   (is_three_of_a_kind_matches_any_trips threeOfAKindHand (by decide)
     CardRank.SEVEN).mpr (by decide)⟩

/-- C10: deal_cards is atomic on failure: whenever it raises OutOfCards the
deck is exactly as before the call, because the availability check precedes
any removal. -/
theorem deal_cards_atomic_on_out_of_cards (deck : List Card) (n : Nat)
    (h : (deal_cards deck n).1 = Except.error DeckError.outOfCards) :
    (deal_cards deck n).2 = deck := by
  unfold deal_cards at h ⊢
  by_cases hc : (deck.length : Int) - (n : Int) > 0
  · rw [if_pos hc] at h ⊢
    cases hp : popN n deck with
    | some pr =>
      obtain ⟨ds, rest⟩ := pr
      rw [hp] at h
      simp at h
    | none =>
      rw [hp] at h
  · rw [if_neg hc]

theorem deal_cards_atomic_on_out_of_cards_witness :
    (deal_cards [] 3).1 = Except.error DeckError.outOfCards ∧
      (deal_cards [] 3).2 = [] :=
  ⟨rfl, deal_cards_atomic_on_out_of_cards [] 3 rfl⟩

end Poker

